import Mathlib

/-!
Verification of the VSI peer-visualization core (`src/pages/map/page.tsx`).

The program keeps a flat list of VSI records, filters them by a name
substring and a normalized state equality, and synthesizes a node/edge
graph: one `vsiNode` per filtered record, one `peerNode` per distinct
peer address (deduplicated through a per-pass map), and one edge per
(record, peer link) pair.  The definitions below are a shallow embedding
of that `useEffect` body (lines 78-124 of the source): JS strings are
`String`, JS template literals are string concatenation, the JS `Map`
is an association list looked up by key equality, and the two `forEach`
loops are structural recursions threading the mutable locals
(`newNodes`, `newEdges`, `peerNodeMap`, `peerXPos`) as explicit state.
-/

namespace VsiMap

/-- `VsiPeerInfo` from `src/interfaces/network.ts`: one pseudowire link of a
VSI record.  Optional interface fields become `Option`. -/
structure VsiPeerInfo where
  id : Nat
  peerAddress : String
  pwId : Nat
  pwState : String
  pwMacLearning : String
  pwMacLimit : Option Nat
  pwInLabel : Nat
  pwOutLabel : Option Nat
  tunnelPolicy : Option String
  peerDeviceName : Option String
deriving DecidableEq, Repr

/-- `Vsi` from `src/interfaces/network.ts`: one virtual-switching-instance
record.  `peers` is optional in the interface (`peers?: VsiPeerInfo[]`). -/
structure Vsi where
  id : Nat
  name : String
  state : String
  type : String
  mtu : Nat
  vlanId : Option Nat
  macLearning : String
  encapsulation : String
  description : Option String
  deviceId : Nat
  peers : Option (List VsiPeerInfo)
deriving DecidableEq, Repr

/-- The two React Flow node types registered by the component
(`vsiNode` and `peerNode`). -/
inductive NodeKind where
  | vsiNode
  | peerNode
deriving DecidableEq, Repr

/-- A node position, `{ x, y }`. -/
structure Position where
  x : Nat
  y : Nat
deriving DecidableEq, Repr

/-- A node's `data` payload: the whole `Vsi` record for a VSI node, or the
`{ ip, name }` summary for a peer node. -/
inductive NodeData where
  | vsiData (v : Vsi)
  | peerData (ip : String) (name : Option String)
deriving DecidableEq, Repr

/-- A React Flow graph node as the synthesis loop builds it. -/
structure Node where
  id : String
  type : NodeKind
  position : Position
  data : NodeData
deriving DecidableEq, Repr

/-- A React Flow graph edge as the synthesis loop builds it.  `animated`
and `stroke` carry the derived `isPeerUp` flag (the source sets
`animated: isPeerUp` and colors the stroke and arrow marker from it);
`pwState` and `pwId` are the edge's `data` payload. -/
structure Edge where
  id : String
  source : String
  target : String
  stroke : String
  animated : Bool
  pwState : String
  pwId : Nat
deriving DecidableEq, Repr

/-- JS `String.prototype.toLowerCase` restricted to the per-character
case fold (sufficient for the ASCII data this program handles). -/
def jsToLower (s : String) : String := ⟨s.data.map Char.toLower⟩

/-- Character-list helper for JS `String.prototype.includes`: does the
second list start with the first? -/
def startsWithChars : List Char → List Char → Bool
  | [], _ => true
  | _ :: _, [] => false
  | a :: as, b :: bs => a == b && startsWithChars as bs

/-- Character-list helper for JS `String.prototype.includes`: does the
second list contain the first as a contiguous run? -/
def hasSubChars : List Char → List Char → Bool
  | sub, [] => sub.isEmpty
  | sub, c :: rest => startsWithChars sub (c :: rest) || hasSubChars sub rest

/-- JS `s.includes(sub)`. -/
def includesJs (s sub : String) : Bool := hasSubChars sub.data s.data

/-- JS `s.replace('*','')` with a string pattern removes only the FIRST
occurrence of the pattern: character-list version. -/
def removeFirstStar : List Char → List Char
  | [] => []
  | c :: cs => if c == '*' then cs else c :: removeFirstStar cs

/-- JS `s.replace('*','')`. -/
def jsReplaceStar (s : String) : String := ⟨removeFirstStar s.data⟩

/-- Line 88: `filterName ? vsi.name.toLowerCase().includes(filterName.toLowerCase()) : true`.
An empty JS string is falsy, so the empty filter matches everything. -/
def nameMatch (filterName : String) (vsi : Vsi) : Bool :=
  if filterName == "" then true
  else includesJs (jsToLower vsi.name) (jsToLower filterName)

/-- Line 89: `filterState ? vsi.state.toLowerCase().replace('*','') === filterState.toLowerCase() : true`. -/
def stateMatch (filterState : String) (vsi : Vsi) : Bool :=
  if filterState == "" then true
  else jsReplaceStar (jsToLower vsi.state) == jsToLower filterState

/-- Lines 87-91: `allVsis.filter(vsi => { ... return nameMatch && stateMatch; })`. -/
def filteredVsis (allVsis : List Vsi) (filterName filterState : String) : List Vsi :=
  allVsis.filter (fun vsi => nameMatch filterName vsi && stateMatch filterState vsi)

/-- Line 84: `let vsiYPos = 100` (never reassigned). -/
def vsiYPos : Nat := 100

/-- Line 84: `const peerYPos = 400`. -/
def peerYPos : Nat := 400

/-- The mutable locals of the synthesis `useEffect`, threaded explicitly:
`newNodes`, `newEdges`, `peerNodeMap` (a JS `Map<string, Node>` modelled
as an insertion-ordered association list) and `peerXPos`. -/
structure SynthState where
  nodes : List Node
  edges : List Edge
  peerNodeMap : List (String × Node)
  peerXPos : Nat
deriving DecidableEq, Repr

/-- `peerNodeMap.get(peerIp)`. -/
def mapGet : List (String × Node) → String → Option Node
  | [], _ => none
  | (k, n) :: rest, a => if k == a then some n else mapGet rest a

/-- The state at the top of the `useEffect` body (lines 80-84). -/
def initState : SynthState :=
  { nodes := [], edges := [], peerNodeMap := [], peerXPos := 100 }

/-- The peer node literal of line 111, at the current `peerXPos`:
`{ id: peer-ip, type: 'peerNode', position: { x: peerXPos, y: peerYPos },
data: { ip: peerIp, name: peer.peerDeviceName } }`. -/
def peerNodeOf (xpos : Nat) (peer : VsiPeerInfo) : Node :=
  { id := "peer-" ++ peer.peerAddress, type := NodeKind.peerNode,
    position := { x := xpos, y := peerYPos },
    data := NodeData.peerData peer.peerAddress peer.peerDeviceName }

/-- The edge literal of lines 114-115: id `edge-vsiId-peerId`, source the
VSI node id, target `peer-address`, with `isPeerUp = pwState.toLowerCase() === 'up'`
driving `animated` and the stroke/marker color, and data `{ pwState, pwId }`. -/
def edgeMk (vsiId : Nat) (vsiNodeId : String) (peer : VsiPeerInfo) : Edge :=
  let isPeerUp := jsToLower peer.pwState == "up"
  { id := "edge-" ++ toString vsiId ++ "-" ++ toString peer.id,
    source := vsiNodeId,
    target := "peer-" ++ peer.peerAddress,
    stroke := if isPeerUp then "#2ecc71" else "#e74c3c",
    animated := isPeerUp,
    pwState := peer.pwState, pwId := peer.pwId }

/-- Lines 107-115, the body of `vsi.peers.forEach((peer) => ...)`: look the
address up in the map; if absent, push a fresh peer node, register it and
advance `peerXPos`; in both cases push one edge. -/
def processPeer (vsi : Vsi) (vsiNodeId : String) (st : SynthState) (peer : VsiPeerInfo) : SynthState :=
  let peerIp := peer.peerAddress
  let st1 :=
    match mapGet st.peerNodeMap peerIp with
    | some _ => st
    | none =>
      { st with
        nodes := st.nodes ++ [peerNodeOf st.peerXPos peer],
        peerNodeMap := st.peerNodeMap ++ [(peerIp, peerNodeOf st.peerXPos peer)],
        peerXPos := st.peerXPos + 200 }
  { st1 with edges := st1.edges ++ [edgeMk vsi.id vsiNodeId peer] }

/-- The `forEach` loop over one record's peers, as a left-to-right fold. -/
def processPeers (vsi : Vsi) (vsiNodeId : String) : SynthState → List VsiPeerInfo → SynthState
  | st, [] => st
  | st, p :: rest => processPeers vsi vsiNodeId (processPeer vsi vsiNodeId st p) rest

/-- The VSI node literal of line 104:
`{ id: vsi-id, type: 'vsiNode', position: { x: 150 + vsiIndex * 250, y: vsiYPos }, data: vsi }`. -/
def vsiNodeOf (vsiIndex : Nat) (vsi : Vsi) : Node :=
  { id := "vsi-" ++ toString vsi.id, type := NodeKind.vsiNode,
    position := { x := 150 + vsiIndex * 250, y := vsiYPos },
    data := NodeData.vsiData vsi }

/-- Lines 102-118, the body of `vsisToRender.forEach((vsi, vsiIndex) => ...)`:
push the VSI node, then, guarded by the truthiness of `vsi.peers?.length`
(skipped when `peers` is absent or empty), run the inner peer loop. -/
def processVsi (st : SynthState) (vsiIndex : Nat) (vsi : Vsi) : SynthState :=
  let vsiNodeId := "vsi-" ++ toString vsi.id
  let st1 := { st with nodes := st.nodes ++ [vsiNodeOf vsiIndex vsi] }
  match vsi.peers with
  | none => st1
  | some ps => if ps.length == 0 then st1 else processPeers vsi vsiNodeId st1 ps

/-- The outer `forEach` with its running index. -/
def processVsis : SynthState → Nat → List Vsi → SynthState
  | st, _, [] => st
  | st, i, v :: rest => processVsis (processVsi st i v) (i + 1) rest

/-- The graph-synthesis stage: from the filtered records (`vsisToRender`,
which line 95 sets to `filteredVsis` unchanged) to the `(newNodes, newEdges)`
pair published by `setNodes`/`setEdges`. -/
def synthesize (vsisToRender : List Vsi) : List Node × List Edge :=
  let fin := processVsis initState 0 vsisToRender
  (fin.nodes, fin.edges)

/-- The whole `useEffect` pipeline: filter, then synthesize. -/
def processData (allVsis : List Vsi) (filterName filterState : String) : List Node × List Edge :=
  synthesize (filteredVsis allVsis filterName filterState)

/-- `vsi.peers` with the absent case read as the empty list (for stating
properties about "all peer links of a record"). -/
def peersOf (v : Vsi) : List VsiPeerInfo :=
  match v.peers with
  | none => []
  | some ps => ps

/-- All peer links of a record list, in iteration order. -/
def allPeers : List Vsi → List VsiPeerInfo
  | [] => []
  | v :: rest => peersOf v ++ allPeers rest

/-- All (record, peer link) pairs, in iteration order. -/
def allLinks : List Vsi → List (Vsi × VsiPeerInfo)
  | [] => []
  | v :: rest => (peersOf v).map (fun p => (v, p)) ++ allLinks rest

/-- Every peerAddress appearing anywhere in a record list, with repetitions. -/
def addressesOf (vsis : List Vsi) : List String :=
  (allPeers vsis).map VsiPeerInfo.peerAddress

/-- Membership test on a list of strings (JS `Map.has`-style, by key
equality), used to state the dedup invariant. -/
def containsStr : List String → String → Bool
  | [], _ => false
  | b :: rest, a => b == a || containsStr rest a

/-- The subsequence of links whose address is seen for the first time (not
in `seen` and not earlier in the list): exactly the links for which the
synthesis loop creates a fresh peer node. -/
def freshLinks (seen : List String) : List VsiPeerInfo → List VsiPeerInfo
  | [] => []
  | p :: rest =>
    if containsStr seen p.peerAddress then freshLinks seen rest
    else p :: freshLinks (seen ++ [p.peerAddress]) rest

/-- The peer nodes created for a run of fresh links starting at a given
`peerXPos` (each node 200 further right). -/
def peerNodesFrom : Nat → List VsiPeerInfo → List Node
  | _, [] => []
  | x, p :: rest => peerNodeOf x p :: peerNodesFrom (x + 200) rest

/-- The map entries registered for a run of fresh links. -/
def peerMapFrom : Nat → List VsiPeerInfo → List (String × Node)
  | _, [] => []
  | x, p :: rest => (p.peerAddress, peerNodeOf x p) :: peerMapFrom (x + 200) rest

/-- The VSI nodes for a record list starting at a given index. -/
def vsiNodesFrom : Nat → List Vsi → List Node
  | _, [] => []
  | i, v :: rest => vsiNodeOf i v :: vsiNodesFrom (i + 1) rest

/-- Strip one trailing star from a character list, if the last character
is a star; otherwise leave the list unchanged. -/
def stripTrailingStar (l : List Char) : List Char :=
  match l.getLast? with
  | some c => if c == '*' then l.dropLast else l
  | none => l

/-- Modelled from the spec: the state normalization it describes —
"lower-case, with a single trailing marker character (if present)
stripped".  This is the spec's wording, to be compared with the code's
normalization `jsReplaceStar (jsToLower s)`, which removes the first
marker character wherever it occurs. -/
def specStateNormalize (s : String) : String :=
  ⟨stripTrailingStar (s.data.map Char.toLower)⟩

/-- Runtime view of a record for the claims about missing fields: the
TypeScript interface declares `name` and `state` as required strings, but
the JSON actually received can omit them, and the filter accesses them
with no guard (`vsi.name.toLowerCase()`), so a missing field surfaces as
a thrown TypeError.  `none` is JS `undefined`. -/
structure VsiRaw where
  id : Nat
  name : Option String
  state : Option String
  peers : Option (List VsiPeerInfo)
deriving DecidableEq, Repr

/-- Line 88 evaluated on a runtime record: with a non-empty filter the
code calls `.toLowerCase()` on `vsi.name`, which throws if the field is
absent. -/
def nameMatchRaw (filterName : String) (vsi : VsiRaw) : Except String Bool :=
  if filterName == "" then Except.ok true
  else
    match vsi.name with
    | none => Except.error "TypeError: vsi.name is undefined"
    | some n => Except.ok (includesJs (jsToLower n) (jsToLower filterName))

/-- Line 89 evaluated on a runtime record. -/
def stateMatchRaw (filterState : String) (vsi : VsiRaw) : Except String Bool :=
  if filterState == "" then Except.ok true
  else
    match vsi.state with
    | none => Except.error "TypeError: vsi.state is undefined"
    | some s => Except.ok (jsReplaceStar (jsToLower s) == jsToLower filterState)

/-- Lines 87-91 on runtime records: the callback evaluates `nameMatch`
first, then `stateMatch` (both `const`s are computed unconditionally),
and a thrown TypeError aborts the whole `filter` call. -/
def filterRaw (filterName filterState : String) : List VsiRaw → Except String (List VsiRaw)
  | [] => Except.ok []
  | v :: rest => do
    let nm ← nameMatchRaw filterName v
    let sm ← stateMatchRaw filterState v
    let tail ← filterRaw filterName filterState rest
    return if nm && sm then v :: tail else tail

/-- The first peer link of the spec's worked example (§8). -/
def peerA : VsiPeerInfo :=
  { id := 10, peerAddress := "10.0.0.1", pwId := 100, pwState := "up",
    pwMacLearning := "enabled", pwMacLimit := none, pwInLabel := 16,
    pwOutLabel := some 17, tunnelPolicy := none, peerDeviceName := none }

/-- The second peer link of the spec's worked example (§8): same address,
pseudowire down. -/
def peerB : VsiPeerInfo :=
  { peerA with id := 11, pwState := "down" }

/-- Record 1 of the spec's worked example (§8). -/
def vsiA : Vsi :=
  { id := 1, name := "VSI-A", state := "up*", type := "vpls", mtu := 1500,
    vlanId := none, macLearning := "enable", encapsulation := "vlan",
    description := none, deviceId := 1, peers := some [peerA] }

/-- Record 2 of the spec's worked example (§8). -/
def vsiB : Vsi :=
  { vsiA with id := 2, name := "VSI-B", state := "down", peers := some [peerB] }

/-- A record whose state carries the marker character in a non-trailing
position. -/
def vsiStarMid : Vsi :=
  { vsiA with id := 3, name := "VSI-C", state := "u*p", peers := none }

/-- A record whose state is exactly the spec's `"up*"` example. -/
def vsiUpStar : Vsi :=
  { vsiA with id := 4, name := "VSI-D", state := "up*", peers := none }

/-- A record named `"CORE-SW1"`, the spec's name-filter example. -/
def vsiCore : Vsi :=
  { vsiA with id := 5, name := "CORE-SW1", state := "up", peers := none }

/-- A peer link with an empty `peerAddress` (a malformed link in the
spec's sense). -/
def peerEmptyAddr : VsiPeerInfo :=
  { peerA with id := 12, peerAddress := "" }

/-- A record whose only peer link has an empty address. -/
def vsiEmptyPeer : Vsi :=
  { vsiA with id := 6, name := "VSI-E", state := "up", peers := some [peerEmptyAddr] }

/-- Two links to one address carrying different resolved device names:
the first resolves to "first-device". -/
def peerNamedFirst : VsiPeerInfo :=
  { peerA with id := 13, peerAddress := "10.0.0.9", peerDeviceName := some "first-device" }

/-- The later link to the same address, carrying a different device name. -/
def peerNamedSecond : VsiPeerInfo :=
  { peerA with id := 14, peerAddress := "10.0.0.9", peerDeviceName := some "second-device" }

/-- A record holding both links to `10.0.0.9`, in order. -/
def vsiTwoNames : Vsi :=
  { vsiA with
    id := 7, name := "VSI-F", state := "up",
    peers := some [peerNamedFirst, peerNamedSecond] }

/-- A runtime record with the `name` field absent. -/
def rawMissingName : VsiRaw :=
  { id := 8, name := none, state := some "up", peers := none }

/-- A runtime record with an empty (but present) name and state. -/
def rawEmptyFields : VsiRaw :=
  { id := 9, name := some "", state := some "", peers := none }

/-! ## Helper lemmas -/

/-- Two strings are equal exactly when their character lists are. -/
theorem string_eq_iff_data (s t : String) : s = t ↔ s.data = t.data := by
  constructor
  · intro h; rw [h]
  · intro h; cases s; cases t; simp_all

/-- Prefixing with `"peer-"` is injective on addresses. -/
theorem peer_id_inj (a b : String) : ("peer-" ++ a : String) = "peer-" ++ b ↔ a = b := by
  constructor
  · intro h
    have h2 := congrArg String.data h
    simp only [String.data_append] at h2
    have := List.append_cancel_left h2
    exact (string_eq_iff_data a b).mpr this
  · intro h; rw [h]

/-- `containsStr` distributes over append. -/
theorem containsStr_append (l₁ l₂ : List String) (a : String) :
    containsStr (l₁ ++ l₂) a = (containsStr l₁ a || containsStr l₂ a) := by
  induction l₁ with
  | nil => simp [containsStr]
  | cons b rest ih => simp [containsStr, ih, Bool.or_assoc]

/-- `containsStr` is list membership. -/
theorem containsStr_iff_mem (l : List String) (a : String) :
    containsStr l a = true ↔ a ∈ l := by
  induction l with
  | nil => simp [containsStr]
  | cons b rest ih =>
    simp only [containsStr, Bool.or_eq_true, beq_iff_eq, ih, List.mem_cons]
    constructor
    · rintro (h | h)
      · exact Or.inl h.symm
      · exact Or.inr h
    · rintro (h | h)
      · exact Or.inl h.symm
      · exact Or.inr h

/-- A map lookup misses exactly when the key is absent. -/
theorem mapGet_eq_none_iff (M : List (String × Node)) (a : String) :
    mapGet M a = none ↔ containsStr (M.map Prod.fst) a = false := by
  induction M with
  | nil => simp [mapGet, containsStr]
  | cons kn rest ih =>
    obtain ⟨k, n⟩ := kn
    by_cases hk : (k == a) = true
    · simp [mapGet, containsStr, hk]
    · simp only [Bool.not_eq_true] at hk
      simp [mapGet, containsStr, hk, ih]

/-- The keys registered for a run of fresh links are their addresses. -/
theorem peerMapFrom_keys (x : Nat) (f : List VsiPeerInfo) :
    (peerMapFrom x f).map Prod.fst = f.map VsiPeerInfo.peerAddress := by
  induction f generalizing x with
  | nil => simp [peerMapFrom]
  | cons p rest ih => simp [peerMapFrom, ih]

/-- What the inner `forEach` over one record's peers does to the state:
it appends one fresh peer node (and map entry, and 200 of horizontal
offset) per first-seen address, and one edge per link. -/
theorem processPeers_eq (v : Vsi) (nid : String) (ps : List VsiPeerInfo) :
    ∀ st : SynthState,
      processPeers v nid st ps =
        { nodes := st.nodes ++ peerNodesFrom st.peerXPos (freshLinks (st.peerNodeMap.map Prod.fst) ps),
          edges := st.edges ++ ps.map (edgeMk v.id nid),
          peerNodeMap := st.peerNodeMap ++ peerMapFrom st.peerXPos (freshLinks (st.peerNodeMap.map Prod.fst) ps),
          peerXPos := st.peerXPos + 200 * (freshLinks (st.peerNodeMap.map Prod.fst) ps).length } := by
  induction ps with
  | nil =>
    intro st
    simp [processPeers, freshLinks, peerNodesFrom, peerMapFrom]
  | cons p rest ih =>
    intro st
    show processPeers v nid (processPeer v nid st p) rest = _
    cases h : mapGet st.peerNodeMap p.peerAddress with
    | some n =>
      have hc : containsStr (st.peerNodeMap.map Prod.fst) p.peerAddress = true := by
        cases hcc : containsStr (st.peerNodeMap.map Prod.fst) p.peerAddress with
        | true => rfl
        | false =>
          rw [(mapGet_eq_none_iff _ _).mpr hcc] at h
          cases h
      have hp : processPeer v nid st p = { st with edges := st.edges ++ [edgeMk v.id nid p] } := by
        simp [processPeer, h]
      rw [hp, ih]
      simp [freshLinks, hc, List.append_assoc]
    | none =>
      have hc : containsStr (st.peerNodeMap.map Prod.fst) p.peerAddress = false :=
        (mapGet_eq_none_iff _ _).mp h
      have hp : processPeer v nid st p =
          { nodes := st.nodes ++ [peerNodeOf st.peerXPos p],
            edges := st.edges ++ [edgeMk v.id nid p],
            peerNodeMap := st.peerNodeMap ++ [(p.peerAddress, peerNodeOf st.peerXPos p)],
            peerXPos := st.peerXPos + 200 } := by
        simp [processPeer, h]
      rw [hp, ih]
      simp only [freshLinks, hc, List.map_append, List.map, peerNodesFrom, peerMapFrom,
        List.length_cons, if_false, Bool.false_eq_true, List.append_assoc, List.cons_append,
        List.nil_append, List.singleton_append, SynthState.mk.injEq]
      refine ⟨trivial, trivial, trivial, by ring⟩

/-- What one iteration of the outer `forEach` does to the state. -/
theorem processVsi_eq (st : SynthState) (i : Nat) (v : Vsi) :
    processVsi st i v =
      { nodes := st.nodes ++ [vsiNodeOf i v]
                   ++ peerNodesFrom st.peerXPos (freshLinks (st.peerNodeMap.map Prod.fst) (peersOf v)),
        edges := st.edges ++ (peersOf v).map (edgeMk v.id ("vsi-" ++ toString v.id)),
        peerNodeMap := st.peerNodeMap
                   ++ peerMapFrom st.peerXPos (freshLinks (st.peerNodeMap.map Prod.fst) (peersOf v)),
        peerXPos := st.peerXPos + 200 * (freshLinks (st.peerNodeMap.map Prod.fst) (peersOf v)).length } := by
  cases hp : v.peers with
  | none =>
    simp [processVsi, hp, peersOf, freshLinks, peerNodesFrom, peerMapFrom]
  | some ps =>
    cases ps with
    | nil =>
      simp [processVsi, hp, peersOf, freshLinks, peerNodesFrom, peerMapFrom]
    | cons p rest =>
      have h0 : ((p :: rest).length == 0) = false := by simp
      simp only [processVsi, hp, h0, Bool.false_eq_true, if_false]
      rw [processPeers_eq]
      simp [peersOf, hp]

/-- Kind comparisons reduce. -/
theorem beq_peer_vsi : (NodeKind.peerNode == NodeKind.vsiNode) = false := rfl

/-- Kind comparisons reduce. -/
theorem beq_vsi_peer : (NodeKind.vsiNode == NodeKind.peerNode) = false := rfl

/-- Kind comparisons reduce. -/
theorem beq_peer_peer : (NodeKind.peerNode == NodeKind.peerNode) = true := rfl

/-- Kind comparisons reduce. -/
theorem beq_vsi_vsi : (NodeKind.vsiNode == NodeKind.vsiNode) = true := rfl

/-- `freshLinks` over an appended link list: the second half is filtered
against the addresses already claimed by the first. -/
theorem freshLinks_append (xs ys : List VsiPeerInfo) :
    ∀ seen : List String,
      freshLinks seen (xs ++ ys) =
        freshLinks seen xs
          ++ freshLinks (seen ++ (freshLinks seen xs).map VsiPeerInfo.peerAddress) ys := by
  induction xs with
  | nil => intro seen; simp [freshLinks]
  | cons p rest ih =>
    intro seen
    by_cases hc : containsStr seen p.peerAddress = true
    · simp only [List.cons_append, freshLinks, hc, if_true, List.append_eq]
      exact ih seen
    · simp only [Bool.not_eq_true] at hc
      simp only [List.cons_append, freshLinks, hc, Bool.false_eq_true, if_false,
        List.map_cons, List.append_eq, List.cons_append]
      rw [ih (seen ++ [p.peerAddress])]
      simp [List.append_assoc]

/-- `peerNodesFrom` over an appended link list. -/
theorem peerNodesFrom_append (f₁ f₂ : List VsiPeerInfo) :
    ∀ x : Nat,
      peerNodesFrom x (f₁ ++ f₂) =
        peerNodesFrom x f₁ ++ peerNodesFrom (x + 200 * f₁.length) f₂ := by
  induction f₁ with
  | nil => intro x; simp [peerNodesFrom]
  | cons p rest ih =>
    intro x
    simp only [List.cons_append, peerNodesFrom, List.length_cons, List.append_eq]
    rw [ih (x + 200)]
    have harith : x + 200 + 200 * rest.length = x + 200 * (rest.length + 1) := by ring
    rw [harith]

/-- Peer nodes are of peer kind. -/
theorem peerNodesFrom_filter_peer (f : List VsiPeerInfo) (x : Nat) :
    (peerNodesFrom x f).filter (fun n => n.type == NodeKind.peerNode) = peerNodesFrom x f := by
  induction f generalizing x with
  | nil => simp [peerNodesFrom]
  | cons p rest ih => simp [peerNodesFrom, List.filter, peerNodeOf, beq_peer_peer, ih]

/-- Peer nodes are not of VSI kind. -/
theorem peerNodesFrom_filter_vsi (f : List VsiPeerInfo) (x : Nat) :
    (peerNodesFrom x f).filter (fun n => n.type == NodeKind.vsiNode) = [] := by
  induction f generalizing x with
  | nil => simp [peerNodesFrom]
  | cons p rest ih => simp [peerNodesFrom, List.filter, peerNodeOf, beq_peer_vsi, ih]

/-- The outer loop, fully characterized on every component the claims
need: edges, registered addresses, the running offset, and the two
kind-filtered projections of the node list. -/
theorem processVsis_spec (vsis : List Vsi) :
    ∀ (st : SynthState) (i : Nat),
      (processVsis st i vsis).edges
          = st.edges ++ (allLinks vsis).map (fun l => edgeMk l.1.id ("vsi-" ++ toString l.1.id) l.2)
      ∧ (processVsis st i vsis).peerNodeMap.map Prod.fst
          = st.peerNodeMap.map Prod.fst
              ++ (freshLinks (st.peerNodeMap.map Prod.fst) (allPeers vsis)).map VsiPeerInfo.peerAddress
      ∧ (processVsis st i vsis).peerXPos
          = st.peerXPos + 200 * (freshLinks (st.peerNodeMap.map Prod.fst) (allPeers vsis)).length
      ∧ (processVsis st i vsis).nodes.filter (fun n => n.type == NodeKind.peerNode)
          = st.nodes.filter (fun n => n.type == NodeKind.peerNode)
              ++ peerNodesFrom st.peerXPos (freshLinks (st.peerNodeMap.map Prod.fst) (allPeers vsis))
      ∧ (processVsis st i vsis).nodes.filter (fun n => n.type == NodeKind.vsiNode)
          = st.nodes.filter (fun n => n.type == NodeKind.vsiNode) ++ vsiNodesFrom i vsis := by
  induction vsis with
  | nil =>
    intro st i
    simp [processVsis, allLinks, allPeers, freshLinks, peerNodesFrom, vsiNodesFrom]
  | cons v rest ih =>
    intro st i
    have hv := processVsi_eq st i v
    have hkeys : (processVsi st i v).peerNodeMap.map Prod.fst
        = st.peerNodeMap.map Prod.fst
            ++ (freshLinks (st.peerNodeMap.map Prod.fst) (peersOf v)).map VsiPeerInfo.peerAddress := by
      rw [hv]; simp [peerMapFrom_keys]
    have hx : (processVsi st i v).peerXPos
        = st.peerXPos + 200 * (freshLinks (st.peerNodeMap.map Prod.fst) (peersOf v)).length := by
      rw [hv]
    have hedges : (processVsi st i v).edges
        = st.edges ++ (peersOf v).map (edgeMk v.id ("vsi-" ++ toString v.id)) := by
      rw [hv]
    have hnodes : (processVsi st i v).nodes
        = st.nodes ++ [vsiNodeOf i v]
            ++ peerNodesFrom st.peerXPos (freshLinks (st.peerNodeMap.map Prod.fst) (peersOf v)) := by
      rw [hv]
    obtain ⟨ihe, ihk, ihx, ihp, ihw⟩ := ih (processVsi st i v) (i + 1)
    have hstep : processVsis st i (v :: rest) = processVsis (processVsi st i v) (i + 1) rest := rfl
    rw [hstep]
    refine ⟨?_, ?_, ?_, ?_, ?_⟩
    · rw [ihe, hedges]
      simp only [allLinks, List.map_append, List.map_map, List.append_assoc]
      rfl
    · rw [ihk, hkeys]
      simp only [allPeers]
      rw [freshLinks_append]
      simp [List.map_append, List.append_assoc]
    · rw [ihx, hx, hkeys]
      simp only [allPeers]
      rw [freshLinks_append]
      simp only [List.length_append]
      ring
    · rw [ihp, hnodes, hx, hkeys]
      simp only [allPeers, List.filter_append, peerNodesFrom_filter_peer]
      rw [freshLinks_append, peerNodesFrom_append]
      have hone : [vsiNodeOf i v].filter (fun n => n.type == NodeKind.peerNode) = [] := by
        simp [vsiNodeOf, List.filter, beq_vsi_peer]
      rw [hone]
      simp [List.append_assoc]
    · rw [ihw, hnodes]
      simp only [List.filter_append, peerNodesFrom_filter_vsi, vsiNodesFrom]
      have hone : [vsiNodeOf i v].filter (fun n => n.type == NodeKind.vsiNode) = [vsiNodeOf i v] := by
        simp [vsiNodeOf, List.filter, beq_vsi_vsi]
      rw [hone]
      simp

/-- The edge list a synthesis pass produces: exactly one edge per
(record, peer link) pair, in iteration order. -/
theorem synthesize_edges (vsis : List Vsi) :
    (synthesize vsis).2
      = (allLinks vsis).map (fun l => edgeMk l.1.id ("vsi-" ++ toString l.1.id) l.2) := by
  obtain ⟨he, -, -, -, -⟩ := processVsis_spec vsis initState 0
  simpa [synthesize, initState] using he

/-- The peer nodes a synthesis pass produces: one per first-seen address,
laid out 200 apart starting at x = 100. -/
theorem synthesize_peerNodes (vsis : List Vsi) :
    (synthesize vsis).1.filter (fun n => n.type == NodeKind.peerNode)
      = peerNodesFrom 100 (freshLinks [] (allPeers vsis)) := by
  obtain ⟨-, -, -, hp, -⟩ := processVsis_spec vsis initState 0
  simpa [synthesize, initState] using hp

/-- The VSI nodes a synthesis pass produces: one per record, indexed in
order from 0. -/
theorem synthesize_vsiNodes (vsis : List Vsi) :
    (synthesize vsis).1.filter (fun n => n.type == NodeKind.vsiNode)
      = vsiNodesFrom 0 vsis := by
  obtain ⟨-, -, -, -, hw⟩ := processVsis_spec vsis initState 0
  simpa [synthesize, initState] using hw

/-- Every link the loop creates a node for is the first link bearing its
address: its address is not in `seen` and `find?` on the whole link list
returns it. -/
theorem freshLinks_mem_first (ps : List VsiPeerInfo) :
    ∀ (seen : List String) (q : VsiPeerInfo), q ∈ freshLinks seen ps →
      containsStr seen q.peerAddress = false
        ∧ ps.find? (fun r => r.peerAddress == q.peerAddress) = some q := by
  induction ps with
  | nil =>
    intro seen q hq
    simp [freshLinks] at hq
  | cons p rest ih =>
    intro seen q hq
    by_cases hc : containsStr seen p.peerAddress = true
    · rw [freshLinks, if_pos hc] at hq
      obtain ⟨h1, h2⟩ := ih seen q hq
      have hne : ¬ (p.peerAddress == q.peerAddress) = true := by
        intro hb
        rw [beq_iff_eq.mp hb] at hc
        rw [hc] at h1
        cases h1
      exact ⟨h1, by rw [List.find?_cons_of_neg rest hne]; exact h2⟩
    · simp only [Bool.not_eq_true] at hc
      rw [freshLinks, hc] at hq
      simp only [Bool.false_eq_true, if_false, List.mem_cons] at hq
      rcases hq with rfl | hq
      · refine ⟨hc, ?_⟩
        exact List.find?_cons_of_pos rest (by simp)
      · obtain ⟨h1, h2⟩ := ih (seen ++ [p.peerAddress]) q hq
        rw [containsStr_append] at h1
        simp only [Bool.or_eq_false_iff] at h1
        obtain ⟨h1a, h1b⟩ := h1
        simp only [containsStr, Bool.or_eq_false_iff] at h1b
        have hne : ¬ (p.peerAddress == q.peerAddress) = true := by
          intro hb
          rw [h1b.1] at hb
          cases hb
        exact ⟨h1a, by rw [List.find?_cons_of_neg rest hne]; exact h2⟩

/-- No fresh link carries an address already seen. -/
theorem freshLinks_countP_seen (ps : List VsiPeerInfo) :
    ∀ (seen : List String) (a : String), containsStr seen a = true →
      (freshLinks seen ps).countP (fun p => p.peerAddress == a) = 0 := by
  induction ps with
  | nil => intro seen a _; simp [freshLinks]
  | cons p rest ih =>
    intro seen a hs
    by_cases hc : containsStr seen p.peerAddress = true
    · rw [freshLinks, if_pos hc]
      exact ih seen a hs
    · simp only [Bool.not_eq_true] at hc
      rw [freshLinks, hc]
      simp only [Bool.false_eq_true, if_false, List.countP_cons]
      have hne : (p.peerAddress == a) = false := by
        cases hb : (p.peerAddress == a) with
        | false => rfl
        | true =>
          rw [beq_iff_eq.mp hb] at hc
          rw [hs] at hc
          cases hc
      rw [ih (seen ++ [p.peerAddress]) a (by rw [containsStr_append, hs]; rfl), hne]
      simp

/-- Each unseen address occurring in the link list is claimed by exactly
one fresh link; absent addresses by none. -/
theorem freshLinks_countP (ps : List VsiPeerInfo) :
    ∀ (seen : List String) (a : String), containsStr seen a = false →
      (freshLinks seen ps).countP (fun p => p.peerAddress == a)
        = if containsStr (ps.map VsiPeerInfo.peerAddress) a then 1 else 0 := by
  induction ps with
  | nil => intro seen a _; simp [freshLinks, containsStr]
  | cons p rest ih =>
    intro seen a hs
    by_cases hc : containsStr seen p.peerAddress = true
    · rw [freshLinks, if_pos hc, ih seen a hs]
      have hne : (p.peerAddress == a) = false := by
        cases hb : (p.peerAddress == a) with
        | false => rfl
        | true =>
          rw [beq_iff_eq.mp hb] at hc
          rw [hs] at hc
          cases hc
      simp [containsStr, hne]
    · simp only [Bool.not_eq_true] at hc
      rw [freshLinks, hc]
      simp only [Bool.false_eq_true, if_false, List.countP_cons]
      by_cases hb : (p.peerAddress == a) = true
      · rw [freshLinks_countP_seen rest (seen ++ [p.peerAddress]) a
            (by rw [containsStr_append]; rw [beq_iff_eq.mp hb]; simp [containsStr])]
        simp [containsStr, hb]
      · simp only [Bool.not_eq_true] at hb
        rw [ih (seen ++ [p.peerAddress]) a
            (by rw [containsStr_append, hs, Bool.false_or]; simp [containsStr, hb])]
        simp [containsStr, hb]

/-- Counting nodes satisfying a kind test plus another test factors
through the kind filter. -/
theorem countP_kind_filter (l : List Node) (k : NodeKind) (q : Node → Bool) :
    l.countP (fun n => n.type == k && q n)
      = (l.filter (fun n => n.type == k)).countP q := by
  rw [List.countP_filter]
  congr 1
  funext n
  rw [Bool.and_comm]

/-- Counting peer nodes by id reduces to counting links by address. -/
theorem countP_peerNodesFrom (f : List VsiPeerInfo) (X : String) :
    ∀ x : Nat,
      (peerNodesFrom x f).countP (fun n => n.id == X)
        = f.countP (fun p => ("peer-" ++ p.peerAddress : String) == X) := by
  induction f with
  | nil => intro x; simp [peerNodesFrom]
  | cons p rest ih =>
    intro x
    simp [peerNodesFrom, List.countP_cons, peerNodeOf, ih]

/-- Comparing prefixed ids is comparing addresses. -/
theorem countP_addr_eq (f : List VsiPeerInfo) (a : String) :
    f.countP (fun p => ("peer-" ++ p.peerAddress : String) == ("peer-" ++ a))
      = f.countP (fun p => p.peerAddress == a) := by
  induction f with
  | nil => simp
  | cons p rest ih =>
    simp only [List.countP_cons, ih]
    congr 1
    by_cases h : p.peerAddress = a
    · simp [h]
    · have h2 : ¬ ("peer-" ++ p.peerAddress : String) = "peer-" ++ a := fun hc =>
        h ((peer_id_inj _ _).mp hc)
      simp [h, h2]

/-- Membership in the laid-out peer-node list comes from a fresh link. -/
theorem mem_peerNodesFrom (f : List VsiPeerInfo) :
    ∀ (x : Nat) (n : Node), n ∈ peerNodesFrom x f →
      ∃ (y : Nat) (p : VsiPeerInfo), p ∈ f ∧ n = peerNodeOf y p := by
  induction f with
  | nil => intro x n hn; simp [peerNodesFrom] at hn
  | cons p rest ih =>
    intro x n hn
    rw [peerNodesFrom, List.mem_cons] at hn
    rcases hn with rfl | hn
    · exact ⟨x, p, List.mem_cons_self p rest, rfl⟩
    · obtain ⟨y, q, hq, rfl⟩ := ih (x + 200) n hn
      exact ⟨y, q, List.mem_cons_of_mem p hq, rfl⟩

/-- The ids of the VSI nodes are the record ids, prefixed, in order. -/
theorem vsiNodesFrom_map_id (vsis : List Vsi) :
    ∀ i : Nat, (vsiNodesFrom i vsis).map Node.id
      = vsis.map (fun v => "vsi-" ++ toString v.id) := by
  induction vsis with
  | nil => intro i; simp [vsiNodesFrom]
  | cons v rest ih => intro i; simp [vsiNodesFrom, vsiNodeOf, ih]

/-- One pair per link. -/
theorem allLinks_length (vsis : List Vsi) :
    (allLinks vsis).length = (allPeers vsis).length := by
  induction vsis with
  | nil => simp [allLinks, allPeers]
  | cons v rest ih => simp [allLinks, allPeers, ih]

/-- Correctness of the `includes` helper: a true result is exactly a
decomposition into prefix, occurrence and suffix. -/
theorem startsWithChars_iff (sub : List Char) :
    ∀ l : List Char, startsWithChars sub l = true ↔ ∃ r, l = sub ++ r := by
  induction sub with
  | nil =>
    intro l
    simp [startsWithChars]
  | cons a as ih =>
    intro l
    cases l with
    | nil =>
      simp [startsWithChars]
    | cons b bs =>
      rw [startsWithChars]
      simp only [Bool.and_eq_true, beq_iff_eq, ih]
      constructor
      · rintro ⟨rfl, r, rfl⟩
        exact ⟨r, rfl⟩
      · rintro ⟨r, hr⟩
        rw [List.cons_append] at hr
        cases hr
        exact ⟨rfl, r, rfl⟩

/-- Correctness of the `includes` helper: containment as a contiguous run. -/
theorem hasSubChars_iff (sub : List Char) :
    ∀ l : List Char, hasSubChars sub l = true ↔ ∃ pre post, l = pre ++ sub ++ post := by
  intro l
  induction l with
  | nil =>
    rw [hasSubChars]
    simp only [List.isEmpty_iff]
    constructor
    · rintro rfl
      exact ⟨[], [], rfl⟩
    · rintro ⟨pre, post, hr⟩
      rcases List.append_eq_nil.mp (List.append_eq_nil.mp hr.symm).1 with ⟨-, h2⟩
      exact h2
  | cons c rest ih =>
    rw [hasSubChars]
    simp only [Bool.or_eq_true, startsWithChars_iff, ih]
    constructor
    · rintro (⟨r, hr⟩ | ⟨pre, post, hr⟩)
      · exact ⟨[], r, by simp [hr]⟩
      · exact ⟨c :: pre, post, by simp [hr]⟩
    · rintro ⟨pre, post, hr⟩
      cases pre with
      | nil =>
        exact Or.inl ⟨post, by simpa using hr⟩
      | cons d pre' =>
        rw [List.cons_append, List.cons_append] at hr
        cases hr
        exact Or.inr ⟨pre', post, rfl⟩

/-! ## Claims -/

/-- Claim C1: synthesis emits exactly one peer node per distinct
peerAddress appearing anywhere in the filtered set — an address that
occurs is carried by exactly one peer node (with id `"peer-" ++ address`,
so all links sharing the address resolve to that one id), an address
that does not occur by none, and distinct addresses never share a peer
node id. -/
theorem claim1_peer_dedup (vsis : List Vsi) :
    (∀ a : String, a ∈ addressesOf vsis →
        (synthesize vsis).1.countP
          (fun n => n.type == NodeKind.peerNode && n.id == ("peer-" ++ a)) = 1)
    ∧ (∀ a : String, a ∉ addressesOf vsis →
        (synthesize vsis).1.countP
          (fun n => n.type == NodeKind.peerNode && n.id == ("peer-" ++ a)) = 0)
    ∧ (∀ a b : String, a ≠ b → ("peer-" ++ a : String) ≠ "peer-" ++ b) := by
  have key : ∀ a : String,
      (synthesize vsis).1.countP
          (fun n => n.type == NodeKind.peerNode && n.id == ("peer-" ++ a))
        = if containsStr ((allPeers vsis).map VsiPeerInfo.peerAddress) a then 1 else 0 := by
    intro a
    rw [countP_kind_filter, synthesize_peerNodes, countP_peerNodesFrom, countP_addr_eq,
      freshLinks_countP (allPeers vsis) [] a rfl]
  refine ⟨?_, ?_, ?_⟩
  · intro a ha
    simp only [addressesOf] at ha
    rw [key a, if_pos ((containsStr_iff_mem _ _).mpr ha)]
  · intro a ha
    simp only [addressesOf] at ha
    have hf : containsStr ((allPeers vsis).map VsiPeerInfo.peerAddress) a = false := by
      cases hcc : containsStr ((allPeers vsis).map VsiPeerInfo.peerAddress) a with
      | false => rfl
      | true => exact absurd ((containsStr_iff_mem _ _).mp hcc) ha
    rw [key a, hf]
    simp
  · intro a b hab hc
    exact hab ((peer_id_inj a b).mp hc)

/-- Witness for C1 on the spec's worked example: address `10.0.0.1`
(referenced by both records) gets exactly one peer node, an absent
address gets none, and distinct addresses give distinct ids. -/
theorem claim1_witness :
    (synthesize [vsiA, vsiB]).1.countP
        (fun n => n.type == NodeKind.peerNode && n.id == ("peer-" ++ "10.0.0.1")) = 1
    ∧ (synthesize [vsiA, vsiB]).1.countP
        (fun n => n.type == NodeKind.peerNode && n.id == ("peer-" ++ "10.9.9.9")) = 0
    ∧ ("peer-" ++ "a" : String) ≠ "peer-" ++ "b" := by
  have h := claim1_peer_dedup [vsiA, vsiB]
  exact ⟨h.1 "10.0.0.1" (by decide), h.2.1 "10.9.9.9" (by decide), h.2.2 "a" "b" (by decide)⟩

/-- Claim C2: synthesis emits exactly one VSI node per filtered record,
with id `"vsi-" ++ record.id`, in filtered order, so the VSI-node count
equals the filtered-record count. -/
theorem claim2_vsi_node_per_record (allVsis : List Vsi) (fn fs : String) :
    ((processData allVsis fn fs).1.filter (fun n => n.type == NodeKind.vsiNode)).map Node.id
        = (filteredVsis allVsis fn fs).map (fun v => "vsi-" ++ toString v.id)
    ∧ ((processData allVsis fn fs).1.filter (fun n => n.type == NodeKind.vsiNode)).length
        = (filteredVsis allVsis fn fs).length := by
  have h1 : (processData allVsis fn fs).1.filter (fun n => n.type == NodeKind.vsiNode)
      = vsiNodesFrom 0 (filteredVsis allVsis fn fs) :=
    synthesize_vsiNodes (filteredVsis allVsis fn fs)
  constructor
  · rw [h1, vsiNodesFrom_map_id]
  · rw [h1]
    have h2 := congrArg List.length (vsiNodesFrom_map_id (filteredVsis allVsis fn fs) 0)
    simpa using h2

/-- Claim C3: on the spec's worked example (two records, both filters
empty, both links to `10.0.0.1`), the pipeline produces exactly the 3
nodes `vsi-1`, `peer-10.0.0.1`, `vsi-2` and exactly 2 edges,
`vsi-1 → peer-10.0.0.1` with `isUp = true` and `vsi-2 → peer-10.0.0.1`
with `isUp = false`. -/
theorem claim3_worked_example :
    (processData [vsiA, vsiB] "" "").1.map Node.id = ["vsi-1", "peer-10.0.0.1", "vsi-2"]
    ∧ (processData [vsiA, vsiB] "" "").1.length = 3
    ∧ (processData [vsiA, vsiB] "" "").2.map (fun e => (e.source, e.target, e.animated))
        = [("vsi-1", "peer-10.0.0.1", true), ("vsi-2", "peer-10.0.0.1", false)]
    ∧ (processData [vsiA, vsiB] "" "").2.length = 2 := by
  decide

/-- Claim C8: synthesis is deterministic — two runs on equal inputs
(records, name filter, state filter) produce identical node and edge
lists, ids and positions included (the embedding is a pure function of
its input, and list equality here is full structural equality of every
node and edge record). -/
theorem claim8_deterministic (a1 a2 : List Vsi) (fn1 fn2 fs1 fs2 : String)
    (h1 : a1 = a2) (h2 : fn1 = fn2) (h3 : fs1 = fs2) :
    processData a1 fn1 fs1 = processData a2 fn2 fs2 := by
  rw [h1, h2, h3]

/-- Witness for C8 at a concrete input. -/
theorem claim8_witness : processData [vsiA, vsiB] "" "" = processData [vsiA, vsiB] "" "" :=
  claim8_deterministic [vsiA, vsiB] [vsiA, vsiB] "" "" "" "" rfl rfl rfl

/-- Claim C9: synthesis emits exactly one edge per (record, peer link)
pair — in particular for every pair with a resolvable address — with id
`"edge-" ++ record.id ++ "-" ++ link.id`, source the record's VSI node
id, target the address's peer node id, payload carrying the pseudowire
state and id, and the derived `isUp` flag true exactly when the
pseudowire state equals `"up"` case-insensitively. -/
theorem claim9_edge_per_link (vsis : List Vsi) :
    (synthesize vsis).2
        = (allLinks vsis).map (fun l => edgeMk l.1.id ("vsi-" ++ toString l.1.id) l.2)
    ∧ ∀ e ∈ (synthesize vsis).2, (e.animated = true ↔ jsToLower e.pwState = "up") := by
  refine ⟨synthesize_edges vsis, ?_⟩
  intro e he
  rw [synthesize_edges vsis] at he
  obtain ⟨l, hl, rfl⟩ := List.mem_map.mp he
  simp only [edgeMk]
  exact beq_iff_eq

/-- Witness for C9: the worked example's first edge has `isUp = true`
exactly because its pwState case-folds to `"up"`. -/
theorem claim9_witness :
    (synthesize [vsiA]).2
        = (allLinks [vsiA]).map (fun l => edgeMk l.1.id ("vsi-" ++ toString l.1.id) l.2)
    ∧ ((edgeMk vsiA.id ("vsi-" ++ toString vsiA.id) peerA).animated = true
        ↔ jsToLower (edgeMk vsiA.id ("vsi-" ++ toString vsiA.id) peerA).pwState = "up") := by
  have h := claim9_edge_per_link [vsiA]
  exact ⟨h.1, h.2 _ (by decide)⟩

/-- Claim C10 (implicit): when several links share one peerAddress, the
single peer node's payload (displayed ip and resolved device name) comes
from the first such link in iteration order; later links' device names
have no effect. -/
theorem claim10_first_link_payload (vsis : List Vsi) (a : String) (p : VsiPeerInfo)
    (h : (allPeers vsis).find? (fun q => q.peerAddress == a) = some p) :
    ∀ n ∈ (synthesize vsis).1, n.type = NodeKind.peerNode → n.id = "peer-" ++ a →
      n.data = NodeData.peerData p.peerAddress p.peerDeviceName := by
  intro n hn ht hid
  have hmem : n ∈ (synthesize vsis).1.filter (fun m => m.type == NodeKind.peerNode) := by
    rw [List.mem_filter]
    refine ⟨hn, ?_⟩
    rw [ht]
    exact beq_peer_peer
  rw [synthesize_peerNodes] at hmem
  obtain ⟨y, q, hq, rfl⟩ := mem_peerNodesFrom _ _ _ hmem
  have haddr : q.peerAddress = a := (peer_id_inj _ _).mp hid
  obtain ⟨-, hfind⟩ := freshLinks_mem_first (allPeers vsis) [] q hq
  rw [haddr] at hfind
  rw [h] at hfind
  injection hfind with hpq
  rw [hpq]
  rfl

/-- Witness for C10: two links to `10.0.0.9` carrying device names
`first-device` then `second-device` — the emitted node's payload is the
first link's. -/
theorem claim10_witness :
    (allPeers [vsiTwoNames]).find? (fun q => q.peerAddress == "10.0.0.9") = some peerNamedFirst
    ∧ (peerNodeOf 100 peerNamedFirst).data
        = NodeData.peerData peerNamedFirst.peerAddress peerNamedFirst.peerDeviceName :=
  ⟨by decide,
   claim10_first_link_payload [vsiTwoNames] "10.0.0.9" peerNamedFirst (by decide)
     (peerNodeOf 100 peerNamedFirst) (by decide) rfl (by decide)⟩

/-- Counterexample to C4 as stated: on a record whose only peer link has
an EMPTY peerAddress, the loop does not skip the link — it emits a peer
node (with id `"peer-"`) and an edge for it, so the claimed
"no peer node and no edge" is false at this input. -/
theorem claim4_counterexample :
    (synthesize [vsiEmptyPeer]).1.countP (fun n => n.type == NodeKind.peerNode) = 1
    ∧ (synthesize [vsiEmptyPeer]).2.length = 1
    ∧ (synthesize [vsiEmptyPeer]).1.map Node.id = ["vsi-6", "peer-"] := by
  decide

/-- Claim C4 (amended): synthesis has no empty/missing-address guard and
records no diagnostic — a link with an empty peerAddress is processed
like any other: it always gets an edge (one edge per link, no link
skipped), and the empty address gets exactly one peer node, with id
`"peer-" ++ ""`, deduplicated by address like any other. -/
theorem claim4_amended (vsis : List Vsi) (h : "" ∈ addressesOf vsis) :
    (synthesize vsis).2.length = (allPeers vsis).length
    ∧ (synthesize vsis).1.countP
        (fun n => n.type == NodeKind.peerNode && n.id == ("peer-" ++ "")) = 1 := by
  constructor
  · rw [synthesize_edges]
    simp [allLinks_length]
  · rw [countP_kind_filter, synthesize_peerNodes, countP_peerNodesFrom, countP_addr_eq,
      freshLinks_countP (allPeers vsis) [] "" rfl]
    simp only [addressesOf] at h
    rw [if_pos ((containsStr_iff_mem _ _).mpr h)]

/-- Witness for the amended C4 at the empty-address record. -/
theorem claim4_witness :
    (synthesize [vsiEmptyPeer]).2.length = (allPeers [vsiEmptyPeer]).length
    ∧ (synthesize [vsiEmptyPeer]).1.countP
        (fun n => n.type == NodeKind.peerNode && n.id == ("peer-" ++ "")) = 1 :=
  claim4_amended [vsiEmptyPeer] (by decide)

/-- Counterexample to C5 as stated: the record with state `"u*p"` and
filter `"up"`.  The code's normalization removes the first `*` anywhere
(so the record matches), while the claimed normalization strips only a
trailing marker (so `"u*p"` normalizes to itself, which differs from
`"up"`) — the claimed equivalence fails at this input. -/
theorem claim5_counterexample :
    ¬ (stateMatch "up" vsiStarMid = true
        ↔ specStateNormalize vsiStarMid.state = jsToLower "up") := by
  decide

/-- One trailing-star strip agrees with one first-star removal when no
star occurs before the last position. -/
theorem stripTrailingStar_cons_cons (c d : Char) (ds : List Char) :
    stripTrailingStar (c :: d :: ds) = c :: stripTrailingStar (d :: ds) := by
  rw [stripTrailingStar, stripTrailingStar, List.getLast?_cons_cons]
  cases (d :: ds).getLast? with
  | none => rfl
  | some x =>
    show (if (x == '*') = true then (c :: d :: ds).dropLast else c :: d :: ds)
        = c :: (if (x == '*') = true then (d :: ds).dropLast else d :: ds)
    by_cases hx : (x == '*') = true
    · rw [if_pos hx, if_pos hx, List.dropLast_cons₂]
    · rw [if_neg hx, if_neg hx]

/-- When any star in the list is in the last position only, removing the
first star is the same as stripping a trailing one. -/
theorem removeFirstStar_trailing (l : List Char) :
    (∀ c ∈ l.dropLast, ¬ c = '*') → removeFirstStar l = stripTrailingStar l := by
  induction l with
  | nil => intro _; rfl
  | cons c cs ih =>
    intro h
    cases cs with
    | nil =>
      by_cases hc : (c == '*') = true
      · rw [removeFirstStar, if_pos hc, stripTrailingStar]
        simp only [List.getLast?_singleton]
        rw [if_pos hc]
        rfl
      · rw [removeFirstStar, if_neg hc, stripTrailingStar]
        simp only [List.getLast?_singleton]
        rw [if_neg hc]
        rfl
    | cons d ds =>
      have hc : ¬ (c == '*') = true := by
        intro hb
        exact h c (by rw [List.dropLast_cons₂]; exact List.mem_cons_self _ _) (beq_iff_eq.mp hb)
      rw [removeFirstStar, if_neg hc, stripTrailingStar_cons_cons, ih]
      intro x hx
      exact h x (by rw [List.dropLast_cons₂]; exact List.mem_cons_of_mem _ hx)

/-- Claim C5 (amended): a non-empty state filter matches exactly when
the record's state, lower-cased and with the FIRST marker character (at
whatever position) removed, equals the lower-cased filter; `"up*"` still
matches `"up"`, and on states whose marker occurs only in trailing
position the code's normalization coincides with the spec's
trailing-strip wording. -/
theorem claim5_amended (fs : String) (v : Vsi) (h : fs ≠ "") :
    (stateMatch fs v = true ↔ jsReplaceStar (jsToLower v.state) = jsToLower fs)
    ∧ stateMatch "up" vsiUpStar = true
    ∧ (∀ s : String, (∀ c ∈ (jsToLower s).data.dropLast, ¬ c = '*') →
        jsReplaceStar (jsToLower s) = specStateNormalize s) := by
  refine ⟨?_, by decide, ?_⟩
  · have hne : (fs == "") = false := by
      cases hb : fs == "" with
      | false => rfl
      | true => exact absurd (beq_iff_eq.mp hb) h
    simp only [stateMatch, hne, Bool.false_eq_true, if_false]
    exact beq_iff_eq
  · intro s hs
    exact congrArg String.mk (removeFirstStar_trailing _ hs)

/-- Witness for the amended C5: filter `"up"` against the worked
example's first record (state `"up*"`). -/
theorem claim5_witness :
    (stateMatch "up" vsiA = true ↔ jsReplaceStar (jsToLower vsiA.state) = jsToLower "up")
    ∧ stateMatch "up" vsiUpStar = true
    ∧ jsReplaceStar (jsToLower "down*") = specStateNormalize "down*" := by
  have h := claim5_amended "up" vsiA (by decide)
  exact ⟨h.1, h.2.1, h.2.2 "down*" (by decide)⟩

/-- Claim C6: the empty name filter matches every record; a non-empty
name filter matches exactly the records whose lower-cased name contains
the lower-cased filter as a contiguous run (so `"core"` matches
`"CORE-SW1"`); with both filters empty the filter returns the whole
dataset unchanged; and for EVERY filter pair — empty or not, in either
slot — the result is a sublist of the input (stable filter, no
reordering). -/
theorem claim6_name_filter (allVsis : List Vsi) (fn fs : String) (v : Vsi) :
    filteredVsis allVsis "" "" = allVsis
    ∧ (filteredVsis allVsis fn fs).Sublist allVsis
    ∧ nameMatch "" v = true
    ∧ (fn ≠ "" → (nameMatch fn v = true
        ↔ ∃ pre post, (jsToLower v.name).data = pre ++ (jsToLower fn).data ++ post))
    ∧ nameMatch "core" vsiCore = true := by
  refine ⟨?_, List.filter_sublist _, by simp [nameMatch], ?_, by decide⟩
  · rw [filteredVsis, List.filter_eq_self]
    intro a _
    simp [nameMatch, stateMatch]
  · intro h
    have hne : (fn == "") = false := by
      cases hb : fn == "" with
      | false => rfl
      | true => exact absurd (beq_iff_eq.mp hb) h
    simp only [nameMatch, hne, Bool.false_eq_true, if_false, includesJs]
    exact hasSubChars_iff _ _

/-- Witness for C6: order preservation exercised at the state-only
filtering case (empty name filter, state filter `"up"`), plus the
`"core"`/`"CORE-SW1"` substring pair. -/
theorem claim6_witness :
    filteredVsis [vsiA, vsiB] "" "" = [vsiA, vsiB]
    ∧ (filteredVsis [vsiA, vsiB] "" "up").Sublist [vsiA, vsiB]
    ∧ (filteredVsis [vsiA, vsiB] "core" "").Sublist [vsiA, vsiB]
    ∧ nameMatch "" vsiCore = true
    ∧ (nameMatch "core" vsiCore = true
        ↔ ∃ pre post, (jsToLower vsiCore.name).data = pre ++ (jsToLower "core").data ++ post)
    ∧ nameMatch "core" vsiCore = true := by
  have h1 := claim6_name_filter [vsiA, vsiB] "" "up" vsiCore
  have h2 := claim6_name_filter [vsiA, vsiB] "core" "" vsiCore
  exact ⟨h1.1, h1.2.1, h2.2.1, h1.2.2.1, h2.2.2.2.1 (by decide), h1.2.2.2.2⟩

/-- Counterexample to C7 as stated: a record whose `name` field is
MISSING does not get silently excluded — with a non-empty name filter
the callback's `vsi.name.toLowerCase()` throws, so the whole filter call
errors instead of returning the empty result the claim demands. -/
theorem claim7_counterexample :
    filterRaw "a" "" [rawMissingName] = Except.error "TypeError: vsi.name is undefined"
    ∧ filterRaw "a" "" [rawMissingName] ≠ Except.ok [] := by
  have he : filterRaw "a" "" [rawMissingName]
      = Except.error "TypeError: vsi.name is undefined" := rfl
  refine ⟨he, ?_⟩
  intro hc
  rw [he] at hc
  exact Except.noConfusion hc

/-- Non-empty filters lower-cased are non-empty: helper for the empty
field cases. -/
theorem includesJs_to_empty (fn : String) (h : fn ≠ "") :
    includesJs (jsToLower "") (jsToLower fn) = false := by
  show hasSubChars (jsToLower fn).data [] = false
  rw [hasSubChars]
  show (fn.data.map Char.toLower).isEmpty = false
  cases hfd : fn.data with
  | nil => exact absurd ((string_eq_iff_data fn "").mpr hfd) h
  | cons c cs => rfl

/-- Lower-casing preserves non-emptiness. -/
theorem jsToLower_ne_empty (s : String) (h : s ≠ "") : jsToLower s ≠ "" := by
  intro hc
  have hd := (string_eq_iff_data _ _).mp hc
  cases hfd : s.data with
  | nil => exact h ((string_eq_iff_data s "").mpr hfd)
  | cons c cs =>
    rw [show (jsToLower s).data = s.data.map Char.toLower from rfl, hfd] at hd
    cases hd

/-- Claim C7 (amended): a record with an EMPTY (present) name or state
never matches the corresponding non-empty filter and is excluded without
error; but a record with a MISSING name or state makes the filter throw
a TypeError when the corresponding filter is non-empty, instead of being
excluded. -/
theorem claim7_amended (fn fs : String) (v : VsiRaw) (hfn : fn ≠ "") (hfs : fs ≠ "") :
    (v.name = some "" → nameMatchRaw fn v = Except.ok false)
    ∧ (v.state = some "" → stateMatchRaw fs v = Except.ok false)
    ∧ (v.name = none → nameMatchRaw fn v = Except.error "TypeError: vsi.name is undefined")
    ∧ (v.state = none → stateMatchRaw fs v = Except.error "TypeError: vsi.state is undefined")
    ∧ (v.name = some "" → v.state = some "" → filterRaw fn fs [v] = Except.ok []) := by
  have hnf : (fn == "") = false := by
    cases hb : fn == "" with
    | false => rfl
    | true => exact absurd (beq_iff_eq.mp hb) hfn
  have hsf : (fs == "") = false := by
    cases hb : fs == "" with
    | false => rfl
    | true => exact absurd (beq_iff_eq.mp hb) hfs
  have hname : v.name = some "" → nameMatchRaw fn v = Except.ok false := by
    intro hv
    simp only [nameMatchRaw, hnf, Bool.false_eq_true, if_false, hv]
    rw [includesJs_to_empty fn hfn]
  have hstate : v.state = some "" → stateMatchRaw fs v = Except.ok false := by
    intro hv
    simp only [stateMatchRaw, hsf, Bool.false_eq_true, if_false, hv]
    have : (jsReplaceStar (jsToLower "") == jsToLower fs) = false := by
      cases hb : jsReplaceStar (jsToLower "") == jsToLower fs with
      | false => rfl
      | true =>
        have hb2 := beq_iff_eq.mp hb
        exact absurd hb2.symm (jsToLower_ne_empty fs hfs)
    rw [this]
  refine ⟨hname, hstate, ?_, ?_, ?_⟩
  · intro hv
    simp [nameMatchRaw, hnf, hv]
  · intro hv
    simp [stateMatchRaw, hsf, hv]
  · intro hv hs
    simp [filterRaw, hname hv, hstate hs, Bind.bind, Except.bind]
    rfl

/-- Witness for the amended C7 at concrete records: empty fields are
excluded cleanly, a missing name throws. -/
theorem claim7_witness :
    nameMatchRaw "a" rawEmptyFields = Except.ok false
    ∧ stateMatchRaw "b" rawEmptyFields = Except.ok false
    ∧ nameMatchRaw "a" rawMissingName = Except.error "TypeError: vsi.name is undefined"
    ∧ filterRaw "a" "b" [rawEmptyFields] = Except.ok [] := by
  have h1 := claim7_amended "a" "b" rawEmptyFields (by decide) (by decide)
  have h2 := claim7_amended "a" "b" rawMissingName (by decide) (by decide)
  exact ⟨h1.1 rfl, h1.2.1 rfl, h2.2.2.1 rfl, h1.2.2.2.2 rfl rfl⟩

end VsiMap
